import Mathlib

/-!
Verification development for the spuq adaptive stochastic Galerkin solver.

The definitions below embed, in order:
* the multi-index arithmetic used by the EGSZ operator,
* the orthogonal-polynomial recurrence utilities of
  `spuq/polyquad/_polynomials.py` (floats modelled as exact rationals),
* the generalized stochastic Galerkin operator of
  `spuq/application/egsz/multi_operator2.py` and the preconditioning
  operator of `spuq/application/egsz/multi_operator.py`,
* the projection-error computation of
  `spuq/application/egsz/residual_estimator.py`,
* the control flow of the refinement loop in
  `spuq/application/egsz/adaptive_solver.py`.

External collaborators (FEM assembly, meshes, projections, PCG, marking)
are abstracted as parameters, as the specification treats them as out of
scope.
-/

namespace Spuq

/-! ### Multi-indices

Modelled from the spec: the class `Multiindex` from
`spuq/math_utils/multiindex.py` is not part of the sources; only its
callers are.  The spec describes it as a finite-support mapping from
dimension index to a non-negative integer degree with equality by
support and degrees, supporting `increment(dim)` and `decrement(dim)`,
the latter failing if the resulting degree would be negative.  We
represent a multi-index as a list of degrees whose canonical form has
no trailing zeros. -/
abbrev Multiindex := List Nat

/-- Degree of dimension `m`; dimensions beyond the support have degree 0. -/
def miGet (mi : Multiindex) (m : Nat) : Nat := mi.getD m 0

/-- Set the degree of dimension `m` to `v`, zero-padding as needed. -/
def miSet : Multiindex → Nat → Nat → Multiindex
  | [], 0, v => [v]
  | [], m + 1, v => 0 :: miSet [] m v
  | _ :: xs, 0, v => v :: xs
  | x :: xs, m + 1, v => x :: miSet xs m v

/-- Canonical form: drop trailing zero degrees. -/
def miNormalize : Multiindex → Multiindex
  | [] => []
  | x :: xs =>
    match miNormalize xs with
    | [] => if x = 0 then [] else [x]
    | y :: ys => x :: y :: ys

/-- A multi-index is in canonical form when it has no trailing zero. -/
def MiNormal (mi : Multiindex) : Prop := mi.getLast? ≠ some 0

instance (mi : Multiindex) : Decidable (MiNormal mi) := by
  unfold MiNormal; infer_instance

/-- Modelled from the spec: `increment(dim)` raises the degree of one
dimension by one. -/
def miInc (mi : Multiindex) (m : Nat) : Multiindex :=
  miNormalize (miSet mi m (miGet mi m + 1))

/-- Modelled from the spec: `decrement(dim)` lowers the degree of one
dimension by one and fails (domain error, here `none`) if the resulting
degree would be negative. -/
def miDec (mi : Multiindex) (m : Nat) : Option Multiindex :=
  if miGet mi m = 0 then none
  else some (miNormalize (miSet mi m (miGet mi m - 1)))

/-- Modelled from the spec: the order of a multi-index bounds the
stochastic dimensions with nonzero degree (one past the highest
supported dimension index). -/
def miOrder (mi : Multiindex) : Nat := (miNormalize mi).length

/-! ### Recurrence coefficients and squared norms

Embedding of `spuq/polyquad/_polynomials.py`; Python floats are
modelled as exact rationals. -/

/-- Convert recurrence coefficients from the 4 coefficient form of
Abramowitz and Stegun to the 3 coefficient form. -/
def rc4_to_rc3 (a : ℚ × ℚ × ℚ × ℚ) : ℚ × ℚ × ℚ :=
  (a.2.1 / a.1, a.2.2.1 / a.1, a.2.2.2 / a.1)

/-- Compute the squared norm of the n-th polynomial from the recurrence
coefficients: `h = (b 0 / b n) * c 1 * c 2 * ... * c n`. -/
def sqnorm_from_rc (rc : Nat → ℚ × ℚ × ℚ) (n : Nat) : ℚ :=
  (List.range' 1 n).foldl (fun h i => h * (rc i).2.2) ((rc 0).2.1 / (rc n).2.1)

/-- Recurrence coefficients of the stochastic Hermite polynomials. -/
def rc_stoch_hermite (n : Nat) : ℚ × ℚ × ℚ := (0, 1, (n : ℚ))

/-- Squared norm of the n-th stochastic Hermite polynomial. -/
def sqnorm_stoch_hermite (n : Nat) : ℚ := (Nat.factorial n : ℚ)

/-- Recurrence coefficients of the Legendre polynomials. -/
def rc_legendre (n : Nat) : ℚ × ℚ × ℚ :=
  rc4_to_rc3 (max 0 (n : ℚ) + 1, 0, 2 * (n : ℚ) + 1, (n : ℚ))

/-- Squared norm of the n-th Legendre polynomial on [-1, 1], scaled so
that the norm of the constant polynomial is one. -/
def sqnorm_legendre (n : Nat) : ℚ := 1 / (2 * (n : ℚ) + 1)

/-! ### Association lists keyed by multi-indices

The Python code stores MultiVector components in a dict keyed by
multi-indices; we model the dict as an association list with unique
keys.  Assignment replaces the value of an existing key in place and
appends a fresh key at the end, as a Python dict does. -/

/-- Keys of an association list, in insertion order. -/
def keysOf {α : Type _} (l : List (Multiindex × α)) : List Multiindex :=
  l.map Prod.fst

/-- Dict lookup. -/
def lookupKey {α : Type _} : List (Multiindex × α) → Multiindex → Option α
  | [], _ => none
  | (k, y) :: rest, mu => if k = mu then some y else lookupKey rest mu

/-- Dict assignment: replace the value of an existing key, append a new
key otherwise. -/
def setKey {α : Type _} : List (Multiindex × α) → Multiindex → α → List (Multiindex × α)
  | [], mu, x => [(mu, x)]
  | (k, y) :: rest, mu, x =>
    if k = mu then (mu, x) :: rest else (k, y) :: setKey rest mu x

/-- One dict-assignment step of a loop over multi-indices: assign the
value `g mu` when it is defined, keep the dict unchanged otherwise. -/
def stepSet {α : Type _} (g : Multiindex → Option α)
    (l : List (Multiindex × α)) (mu : Multiindex) : List (Multiindex × α) :=
  match g mu with
  | some x => setKey l mu x
  | none => l

/-! ### CoefficientField and MultiVector interfaces

Modelled from the spec: the coefficient-field provider and the
MultiVector classes are external to the given sources (only their
callers appear there).  Per the spec, a coefficient field is an ordered
sequence of (spatial function, random variable) pairs with
`coeff_field[m]`, `coeff_field.mean_func` and `len(coeff_field)`, where
the random variable exposes three-term recurrence coefficients
`orth_polys.get_beta(degree)` as a three-tuple; the components give, in
order, the Python values `beta[0]`, `beta[1]` and `beta[-1]`. -/
structure OrthPolys where
  get_beta : Nat → ℚ × ℚ × ℚ

/-- Modelled from the spec: ordered access, mean function and length of
the coefficient-field expansion. -/
structure CoefficientField (F : Type _) where
  mean_func : F
  term : Nat → F × OrthPolys
  len : Nat

/-- Bounds-checked access `coeff_field[m]`: out-of-range indexing is a
Python `IndexError`, modelled as `none`. -/
def CoefficientField.getTerm? {F : Type _} (cf : CoefficientField F) (m : Nat) :
    Option (F × OrthPolys) :=
  if m < cf.len then some (cf.term m) else none

/-- Modelled from the spec: the shared-basis MultiVector of
`multi_operator2.py` maps multi-indices to coefficient vectors living
on one common basis `w.basis`. -/
structure MultiVector (B Vec : Type _) where
  basis : B
  entries : List (Multiindex × Vec)

/-- Active index set `w.active_indices()`. -/
def MultiVector.active_indices {B Vec : Type _} (w : MultiVector B Vec) :
    List Multiindex :=
  keysOf w.entries

/-- Component access `w[mu]` (only used at active indices). -/
def MultiVector.get {B Vec : Type _} [Zero Vec] (w : MultiVector B Vec)
    (mu : Multiindex) : Vec :=
  (lookupKey w.entries mu).getD 0

/-- The zero MultiVector `0 * w`: same active set, zero components. -/
def MultiVector.zeroLike {B Vec : Type _} [Zero Vec] (w : MultiVector B Vec) :
    MultiVector B Vec :=
  ⟨w.basis, w.entries.map fun p => (p.1, 0)⟩

/-- Modelled from the spec: `w.max_order`, the bound on stochastic
dimensions carrying a nonzero degree across the active set. -/
def MultiVector.max_order {B Vec : Type _} (w : MultiVector B Vec) : Nat :=
  w.active_indices.foldl (fun a mu => max a (miOrder mu)) 0

/-! ### MultiOperator (single shared mesh)

Embedding of `MultiOperator` from
`spuq/application/egsz/multi_operator2.py`.  The assembly callables of
the excluded FEM backend are abstract parameters; an assembled operator
is an abstract linear map on coefficient vectors. -/
structure MultiOperator (F B Vec : Type _) where
  coeff_field : CoefficientField F
  assemble_0 : B → F → Vec → Vec
  assemble_m : B → F → Vec → Vec

/-- The effective number of stochastic dimensions used by `apply`: the
MultiVector order, truncated to the coefficient-field length with a
logged warning when the field is too short. -/
def MultiOperator.maxm {F B Vec : Type _} (op : MultiOperator F B Vec)
    (w : MultiVector B Vec) : Nat :=
  if op.coeff_field.len < w.max_order then op.coeff_field.len else w.max_order

/-- The contribution of stochastic dimension `m` to the result
component for `mu`: the operator `A_m` applied to the
recurrence-weighted combination of `w[mu]` and those of its neighbors
`mu ± e_m` that are active. -/
def MultiOperator.termContribution {F B Vec : Type _} [AddCommGroup Vec]
    [Module ℚ Vec] (op : MultiOperator F B Vec) (w : MultiVector B Vec)
    (Lambda : List Multiindex) (mu : Multiindex) (m : Nat) : Vec :=
  let t := op.coeff_field.term m
  let Am := op.assemble_m w.basis t.1
  let beta := t.2.get_beta (miGet mu m)
  let cur_w := (-beta.1) • w.get mu
  let mu1 := miInc mu m
  let cur_w := if mu1 ∈ Lambda then cur_w + beta.2.1 • w.get mu1 else cur_w
  let cur_w :=
    match miDec mu m with
    | some mu2 => if mu2 ∈ Lambda then cur_w + beta.2.2 • w.get mu2 else cur_w
    | none => cur_w
  Am cur_w

/-- The result component of `MultiOperator.apply` for one active
multi-index `mu`: the mean-field contribution plus the accumulated
per-dimension contributions. -/
def MultiOperator.applyAt {F B Vec : Type _} [AddCommGroup Vec] [Module ℚ Vec]
    (op : MultiOperator F B Vec) (w : MultiVector B Vec)
    (Lambda : List Multiindex) (maxm : Nat) (mu : Multiindex) : Vec :=
  let A0 := op.assemble_0 w.basis op.coeff_field.mean_func
  (List.range maxm).foldl
    (fun cur_v m => cur_v + op.termContribution w Lambda mu m)
    (A0 (w.get mu))

/-- `MultiOperator.apply`: start from `0 * w` and assign the computed
component for every active index. -/
def MultiOperator.apply {F B Vec : Type _} [AddCommGroup Vec] [Module ℚ Vec]
    (op : MultiOperator F B Vec) (w : MultiVector B Vec) : MultiVector B Vec :=
  let Lambda := w.active_indices
  let maxm := op.maxm w
  ⟨w.basis,
    Lambda.foldl (fun l mu => setKey l mu (op.applyAt w Lambda maxm mu))
      w.zeroLike.entries⟩

/-- Bounds-checked variant of `applyAt` in which every coefficient-field
access `coeff_field[m]` may fail, modelling Python exceptions. -/
def MultiOperator.applyAtChecked {F B Vec : Type _} [AddCommGroup Vec] [Module ℚ Vec]
    (op : MultiOperator F B Vec) (w : MultiVector B Vec)
    (Lambda : List Multiindex) (maxm : Nat) (mu : Multiindex) : Option Vec :=
  let A0 := op.assemble_0 w.basis op.coeff_field.mean_func
  (List.range maxm).foldl
    (fun ocur m => do
      let cur_v ← ocur
      let t ← op.coeff_field.getTerm? m
      let Am := op.assemble_m w.basis t.1
      let beta := t.2.get_beta (miGet mu m)
      let cur_w := (-beta.1) • w.get mu
      let mu1 := miInc mu m
      let cur_w := if mu1 ∈ Lambda then cur_w + beta.2.1 • w.get mu1 else cur_w
      let cur_w :=
        match miDec mu m with
        | some mu2 => if mu2 ∈ Lambda then cur_w + beta.2.2 • w.get mu2 else cur_w
        | none => cur_w
      pure (cur_v + Am cur_w))
    (some (A0 (w.get mu)))

/-- Bounds-checked variant of `apply`. -/
def MultiOperator.applyChecked {F B Vec : Type _} [AddCommGroup Vec] [Module ℚ Vec]
    (op : MultiOperator F B Vec) (w : MultiVector B Vec) :
    Option (MultiVector B Vec) := do
  let Lambda := w.active_indices
  let maxm := op.maxm w
  let entries ← Lambda.foldl
    (fun ol mu => do
      let l ← ol
      let x ← op.applyAtChecked w Lambda maxm mu
      pure (setKey l mu x))
    (some w.zeroLike.entries)
  pure ⟨w.basis, entries⟩

/-! ### PreconditioningOperator

Embedding of `PreconditioningOperator` from
`spuq/application/egsz/multi_operator.py`: components carry their own
basis, and only the mean-field solve operator assembled on the
component basis is applied. -/

/-- A MultiVector component with its own basis and coefficient vector. -/
structure Component (B Vec : Type _) where
  basis : B
  vec : Vec
deriving DecidableEq

/-- MultiVector whose components live on per-index bases. -/
structure MultiVectorPC (B Vec : Type _) where
  entries : List (Multiindex × Component B Vec)

/-- Active index set. -/
def MultiVectorPC.active_indices {B Vec : Type _} (w : MultiVectorPC B Vec) :
    List Multiindex :=
  keysOf w.entries

/-- The preconditioner: mean coefficient function and the solve-operator
assembly callable of the excluded FEM backend. -/
structure PreconditioningOperator (F B Vec : Type _) where
  mean_func : F
  assemble_solver : B → F → Vec → Vec

/-- The component the preconditioner assigns for one active index:
`A0 * w[mu]` with `A0` the solve operator assembled from the mean
coefficient on the basis of `w[mu]`. -/
def PreconditioningOperator.applyValue {F B Vec : Type _}
    (P : PreconditioningOperator F B Vec) (w : MultiVectorPC B Vec)
    (mu : Multiindex) : Option (Component B Vec) :=
  (lookupKey w.entries mu).map fun c =>
    ⟨c.basis, P.assemble_solver c.basis P.mean_func c.vec⟩

/-- `PreconditioningOperator.apply`: for every active `mu`, apply the
mean-field solve operator assembled on the basis of `w[mu]` to `w[mu]`. -/
def PreconditioningOperator.apply {F B Vec : Type _} [Zero Vec]
    (P : PreconditioningOperator F B Vec) (w : MultiVectorPC B Vec) :
    MultiVectorPC B Vec :=
  let Delta := w.active_indices
  ⟨Delta.foldl (stepSet (P.applyValue w))
    (w.entries.map fun p => (p.1, ⟨p.2.basis, 0⟩))⟩

/-! ### Residual estimator: local projection error

Embedding of `evaluateLocalProjectionError` and `_evaluateProjections`
from `spuq/application/egsz/residual_estimator.py` (fresh caches, so
every projection is computed).  FEniCS functions, function spaces,
meshes and the spatial coefficient functions are abstract; the backend
operations (projection between spaces, the assembled gradient-L2
integral, minimum and maximum of a coefficient over the mesh
coordinates) are abstract parameters. -/

/-- A component of `wN`: discrete function, its function space and mesh. -/
structure FemComponent (Fn FS M : Type _) where
  func : Fn
  functionspace : FS
  mesh : M

/-- The FEniCS operations consumed by the projection-error code. -/
structure FemBackend (Fn FS M SF : Type _) where
  project : FS → Fn → Fn
  sub : Fn → Fn → Fn
  gradSqIntegral : Fn → ℚ
  minOn : SF → M → ℚ
  maxOn : SF → M → ℚ

/-- Python floor division `x // y` on floats, modelled on rationals. -/
def pyFloorDiv (x y : ℚ) : ℚ := (⌊x / y⌋ : ℚ)

/-- Modelled from the spec: `mu.add((m, 1))`, the neighbor `mu + e_m`
of the MultiindexSet API absent from the sources. -/
def miAddOne (mu : Multiindex) (m : Nat) : Multiindex := miInc mu m

/-- Modelled from the spec: `mu.add((m, -1))`, the neighbor `mu - e_m`
(used by the source for components with positive degree in `m`). -/
def miSubOne (mu : Multiindex) (m : Nat) : Multiindex :=
  miNormalize (miSet mu m (miGet mu m - 1))

/-- `_evaluateProjections`: project the neighbor `w[mu ± e_m]` onto the
function space of `mu` and back, take the assembled gradient-L2 integral
of the difference with `w[mu]`, and scale with `beta[1]` respectively
`beta[-1]` obtained from the recurrence coefficients at degree `mu[m]`. -/
def evaluateProjectionsPair {Fn FS M SF : Type _} (bk : FemBackend Fn FS M SF)
    (wN : Multiindex → FemComponent Fn FS M) (mu : Multiindex) (m : Nat)
    (rc : Nat → ℚ × ℚ × ℚ) : ℚ × ℚ :=
  let abc := rc (miGet mu m)
  let beta : ℚ × ℚ × ℚ := (abc.1 / abc.2.1, 1 / abc.2.1, abc.2.2 / abc.2.1)
  let mu1 := miAddOne mu m
  let projected1 := bk.project (wN mu).functionspace (wN mu1).func
  let projectedBack1 := bk.project (wN mu1).functionspace projected1
  let error1 := bk.sub projectedBack1 (wN mu).func
  let zeta1 := beta.2.1 * bk.gradSqIntegral error1
  let mu2 := miSubOne mu m
  let projected2 := bk.project (wN mu).functionspace (wN mu2).func
  let projectedBack2 := bk.project (wN mu2).functionspace projected2
  let error2 := bk.sub projectedBack2 (wN mu).func
  let zeta2 := beta.2.2 * bk.gradSqIntegral error2
  (zeta1, zeta2)

/-- `evaluateLocalProjectionError`: weight both projection errors by
`ainfty = ammax // amin` where `amin` is the minimum of `a_0` and
`ammax` the maximum of `a_m` over the coordinates of the mesh of
`w[mu]`.  Note the Python floor division in the source. -/
def evaluateLocalProjectionError {Fn FS M SF : Type _} (bk : FemBackend Fn FS M SF)
    (CF : Nat → SF × (Nat → ℚ × ℚ × ℚ))
    (wN : Multiindex → FemComponent Fn FS M) (mu : Multiindex) (m : Nat) : ℚ × ℚ :=
  let a0_f := (CF 0).1
  let am_f := (CF m).1
  let amin := bk.minOn a0_f (wN mu).mesh
  let ammax := bk.maxOn am_f (wN mu).mesh
  let ainfty := pyFloorDiv ammax amin
  let z := evaluateProjectionsPair bk wN mu m (CF m).2
  (ainfty * z.1, ainfty * z.2)

/-- The weight the claim and the docstring of the source prescribe: the
true ratio `ammax / amin` approximating the maximum norm of `a_m / a_0`,
with no floor. -/
def evaluateLocalProjectionErrorSpec {Fn FS M SF : Type _} (bk : FemBackend Fn FS M SF)
    (CF : Nat → SF × (Nat → ℚ × ℚ × ℚ))
    (wN : Multiindex → FemComponent Fn FS M) (mu : Multiindex) (m : Nat) : ℚ × ℚ :=
  let a0_f := (CF 0).1
  let am_f := (CF m).1
  let amin := bk.minOn a0_f (wN mu).mesh
  let ammax := bk.maxOn am_f (wN mu).mesh
  let ainfty := ammax / amin
  let z := evaluateProjectionsPair bk wN mu m (CF m).2
  (ainfty * z.1, ainfty * z.2)

/-! ### AdaptiveSolver refinement loop

Embedding of the control flow of `AdaptiveSolver` from
`spuq/application/egsz/adaptive_solver.py`.  The numerical phases (PCG
solve, error estimation, marking, refinement) are abstract oracles; the
state carries ghost counters for the number of calls to each phase. -/

/-- The per-iteration statistics record, restricted to the fields the
loop control and the claims consume. -/
structure StatsRec where
  dofs : Nat
  est : ℚ
  markingRes : Nat
  markingProj : Nat
  markingMi : Nat
deriving DecidableEq

instance : Inhabited StatsRec := ⟨⟨0, 0, 0, 0, 0⟩⟩

/-- The counts returned by `Marking.mark` that flow into the statistics. -/
structure MarkData where
  markersRes : Nat
  markersProj : Nat
  newMi : Nat

/-- The numerical phases of one iteration, abstracted: `solve` is
`pcg_solve` returning the updated vector and `zeta`, `dofsOf` the DOF
count it stores, `estimate` the residual estimator returning `xi`,
`mark` is `Marking.mark`, `refine` is `Marking.refine` given the three
refinement toggles, and `refineUniform` the uniform-refinement branch. -/
structure Oracle (W : Type _) where
  solve : W → W × ℚ
  dofsOf : W → Nat
  estimate : W → ℚ → ℚ
  mark : W → ℚ → MarkData
  refine : W → Bool → Bool → Bool → W
  refineUniform : W → W

/-- Tuning parameters of the loop. -/
structure ASParams where
  maxRefinements : Nat
  maxDof : ℚ
  errorEps : ℚ
  doUniformRefinement : Bool
  doRes : Bool
  doProj : Bool
  doMi : Bool

/-- The loop state: current MultiVector, statistics sequence, optional
solution history, and ghost call counters. -/
structure ASState (W : Type _) where
  w : W
  simStats : List StatsRec
  wHistory : Option (List W)
  nSolve : Nat
  nEstimate : Nat
  nMark : Nat
  nRefine : Nat

/-- Which break left the loop; `none` at top level means the iteration
range was exhausted.  The spec labels the first two (and range
exhaustion) EXHAUSTED and the third CONVERGED. -/
inductive ExitKind where
  | exhaustedMaxRef
  | exhaustedDof
  | converged
deriving DecidableEq

/-- The spec state-machine label of a loop exit. -/
def exitLabel : Option ExitKind → String
  | some .converged => "CONVERGED"
  | _ => "EXHAUSTED"

/-- The iteration the loop starts at: `max(len(sim_stats) - 1, 0)`. -/
def startIteration (simStats0 : List StatsRec) : Nat :=
  max (simStats0.length - 1) 0

/-- The MultiVector after the PCG solve of one iteration. -/
def solveW {W : Type _} (o : Oracle W) (w : W) : W := (o.solve w).1

/-- The preconditioned residual norm `zeta` returned by the solve. -/
def solveZeta {W : Type _} (o : Oracle W) (w : W) : ℚ := (o.solve w).2

/-- The error estimate `xi` of one iteration. -/
def iterXi {W : Type _} (o : Oracle W) (w : W) : ℚ :=
  o.estimate (solveW o w) (solveZeta o w)

/-- The statistics record built by one iteration before marking: the
marking counts are initialised to zero. -/
def iterRecord {W : Type _} (o : Oracle W) (w : W) : StatsRec :=
  ⟨o.dofsOf (solveW o w), iterXi o w, 0, 0, 0⟩

/-- The statistics sequence after the conditional append of iteration
`k`: appended exactly when `refinement == 0 or start_iteration <
refinement`. -/
def iterSim1 {W : Type _} (o : Oracle W) (start k : Nat) (st : ASState W) :
    List StatsRec :=
  if k = 0 ∨ start < k then st.simStats ++ [iterRecord o st.w] else st.simStats

/-- The loop state after solve, estimate and the conditional appends of
iteration `k`, before any marking: the solution history is appended
under the same condition as the statistics record. -/
def iterBase {W : Type _} (p : ASParams) (o : Oracle W) (start k : Nat)
    (st : ASState W) : ASState W :=
  ⟨solveW o st.w, iterSim1 o start k st,
    st.wHistory.map fun h =>
      if k = 0 ∨ start < k then h ++ [solveW o st.w] else h,
    st.nSolve + 1, st.nEstimate + 1, st.nMark, st.nRefine⟩

/-- One iteration of the refinement loop at index `k`: PCG solve,
optional history append, error estimation, statistics append, the three
exit checks in source order, then marking and refinement when no check
fired and `k < max_refinements`. -/
def iterStep {W : Type _} (p : ASParams) (o : Oracle W) (start k : Nat)
    (st : ASState W) : ASState W × Option ExitKind :=
  let base := iterBase p o start k st
  if p.maxRefinements < k then (base, some ExitKind.exhaustedMaxRef)
  else if p.maxDof ≤ (((iterSim1 o start k st).getD k default).dofs : ℚ) then
    (base, some ExitKind.exhaustedDof)
  else if iterXi o st.w ≤ p.errorEps then (base, some ExitKind.converged)
  else if k < p.maxRefinements then
    if p.doUniformRefinement = false then
      let md := o.mark (solveW o st.w) (iterXi o st.w)
      let stats1 : StatsRec :=
        { iterRecord o st.w with markingRes := md.markersRes,
                                 markingProj := md.markersProj,
                                 markingMi := md.newMi }
      let sim2 :=
        if k = 0 ∨ start < k then (iterSim1 o start k st).dropLast ++ [stats1]
        else iterSim1 o start k st
      let w2 := o.refine (solveW o st.w) p.doRes p.doProj p.doMi
      ({ base with w := w2, simStats := sim2, nMark := st.nMark + 1,
                   nRefine := st.nRefine + 1 }, none)
    else
      let w2 := o.refineUniform (solveW o st.w)
      ({ base with w := w2, nRefine := st.nRefine + 1 }, none)
  else (base, none)

/-- Run the loop over the iteration range; `fuel` counts the iterations
remaining in `range(start, max_refinements + 1)`. -/
def runLoop {W : Type _} (p : ASParams) (o : Oracle W) (start : Nat) :
    Nat → Nat → ASState W → ASState W × Option ExitKind
  | 0, _, st => (st, none)
  | fuel + 1, k, st =>
    match iterStep p o start k st with
    | (st1, some e) => (st1, some e)
    | (st1, none) => runLoop p o start fuel (k + 1) st1

/-- The AdaptiveSolver refinement loop: resume at
`max(len(sim_stats) - 1, 0)` and iterate over
`range(start_iteration, max_refinements + 1)`. -/
def AdaptiveSolver {W : Type _} (p : ASParams) (o : Oracle W) (w0 : W)
    (simStats0 : List StatsRec) (hist0 : Option (List W)) :
    ASState W × Option ExitKind :=
  let start := startIteration simStats0
  runLoop p o start (p.maxRefinements + 1 - start) start
    ⟨w0, simStats0, hist0, 0, 0, 0, 0⟩

/-! ### Concrete instances used by the witnesses -/

/-- A one-term coefficient field over rational scalars. -/
def cfW : CoefficientField ℚ :=
  ⟨2, fun m => ((m : ℚ) + 3, ⟨fun n => ((n : ℚ) + 1, 2, 3)⟩), 1⟩

/-- A concrete MultiOperator whose assembled operators multiply by the
coefficient value. -/
def opW : MultiOperator ℚ Unit ℚ := ⟨cfW, fun _ f v => f * v, fun _ f v => f * v⟩

/-- A concrete two-component shared-basis MultiVector. -/
def wW : MultiVector Unit ℚ := ⟨(), [([], 1), ([1], 2)]⟩

/-- An empty coefficient field, shorter than the order of `wW`. -/
def cfShort : CoefficientField ℚ := ⟨2, fun _ => (1, ⟨fun _ => (0, 0, 0)⟩), 0⟩

/-- A concrete MultiOperator over the empty coefficient field. -/
def opShort : MultiOperator ℚ Unit ℚ :=
  ⟨cfShort, fun _ f v => f * v, fun _ f v => f * v⟩

/-- A concrete preconditioner over rational scalars. -/
def pcW : PreconditioningOperator ℚ Unit ℚ := ⟨2, fun _ f v => f * v⟩

/-- A concrete two-component per-basis MultiVector. -/
def wPC : MultiVectorPC Unit ℚ := ⟨[([], ⟨(), 3⟩), ([1], ⟨(), 5⟩)]⟩

/-- A concrete oracle over a trivial MultiVector type: the solve keeps
the state, reports `zeta = 1`, 7 degrees of freedom, estimate
`zeta + 1`, and fixed marking counts. -/
def oU : Oracle Unit :=
  ⟨fun _ => ((), 1), fun _ => 7, fun _ z => z + 1, fun _ _ => ⟨2, 3, 4⟩,
    fun w _ _ _ => w, fun w => w⟩

/-- Concrete loop parameters: two refinements allowed, large DOF
budget, zero error threshold. -/
def pU : ASParams := ⟨2, 100, 0, false, true, true, false⟩

/-- Concrete loop parameters with the DOF budget below the DOF count
reported by `oU`. -/
def pLowDof : ASParams := ⟨2, 5, 0, false, true, true, false⟩

/-- Concrete loop parameters allowing no refinement at all. -/
def pZero : ASParams := ⟨0, 100, 0, false, true, true, false⟩

/-- A concrete loop state. -/
def stU : ASState Unit := ⟨(), [], some [], 0, 0, 0, 0⟩

/-- A two-record statistics history for resume witnesses. -/
def sTwo : List StatsRec := [⟨5, 1, 0, 0, 0⟩, ⟨6, 1, 0, 0, 0⟩]

/-- A two-entry solution history aligned with `sTwo`. -/
def hTwo : List Unit := [(), ()]

/-- A concrete FEM backend over rational scalars: projections are the
identity, the gradient-L2 integral squares the value, and constant
coefficient fields evaluate to themselves. -/
def bkQ : FemBackend ℚ Unit Unit ℚ :=
  ⟨fun _ f => f, fun x y => x - y, fun e => e * e, fun a _ => a, fun a _ => a⟩

/-- A concrete solution map: the component value is determined by the
degrees in the first two dimensions. -/
def wNQ : Multiindex → FemComponent ℚ Unit Unit := fun mu =>
  ⟨(miGet mu 0 : ℚ) + 2 * (miGet mu 1 : ℚ), (), ()⟩

/-- A concrete coefficient field: mean coefficient 2, higher
coefficients 3, Hermite-style recurrence coefficients. -/
def CFQ : Nat → ℚ × (Nat → ℚ × ℚ × ℚ) := fun m =>
  (if m = 0 then 2 else 3, fun n => (0, 1, (n : ℚ)))

/-! ### Multi-index lemmas -/

theorem miGet_nil (m : Nat) : miGet [] m = 0 := rfl

theorem miNormalize_cons (x : Nat) (l : Multiindex) :
    miNormalize (x :: l) =
      match miNormalize l with
      | [] => if x = 0 then [] else [x]
      | y :: ys => x :: y :: ys := rfl

theorem miGet_cons_succ (x : Nat) (xs : Multiindex) (m : Nat) :
    miGet (x :: xs) (m + 1) = miGet xs m := rfl

theorem miGet_miSet_self (mi : Multiindex) (m v : Nat) :
    miGet (miSet mi m v) m = v := by
  induction mi generalizing m with
  | nil =>
    induction m with
    | zero => rfl
    | succ m ih => simpa [miSet, miGet_cons_succ] using ih
  | cons x xs ih =>
    cases m with
    | zero => rfl
    | succ m => simpa [miSet, miGet_cons_succ] using ih m

theorem miGet_miSet_ne (mi : Multiindex) (m v k : Nat) (hk : k ≠ m) :
    miGet (miSet mi m v) k = miGet mi k := by
  induction mi generalizing m k with
  | nil =>
    induction m generalizing k with
    | zero =>
      cases k with
      | zero => exact absurd rfl hk
      | succ k => rfl
    | succ m ih =>
      cases k with
      | zero => rfl
      | succ k =>
        have : k ≠ m := fun h => hk (by simp [h])
        simpa [miSet, miGet_cons_succ] using ih k this
  | cons x xs ih =>
    cases m with
    | zero =>
      cases k with
      | zero => exact absurd rfl hk
      | succ k => rfl
    | succ m =>
      cases k with
      | zero => rfl
      | succ k =>
        have : k ≠ m := fun h => hk (by simp [h])
        simpa [miSet, miGet_cons_succ] using ih m k this

theorem miGet_miNormalize (mi : Multiindex) (m : Nat) :
    miGet (miNormalize mi) m = miGet mi m := by
  induction mi generalizing m with
  | nil => rfl
  | cons x xs ih =>
    simp only [miNormalize]
    cases h : miNormalize xs with
    | nil =>
      have hz : ∀ k, miGet xs k = 0 := by
        intro k
        have hk := ih k
        rw [h] at hk
        exact hk.symm
      by_cases hx : x = 0
      · subst hx
        simp only [if_pos rfl]
        cases m with
        | zero => rfl
        | succ m => rw [miGet_cons_succ, hz m]; rfl
      · simp only [if_neg hx]
        cases m with
        | zero => rfl
        | succ m => exact (hz m).symm
    | cons y ys =>
      cases m with
      | zero => rfl
      | succ m =>
        simp only [miGet_cons_succ]
        rw [← h]
        exact ih m

theorem miNormalize_eq_nil (mi : Multiindex) (h : ∀ k, miGet mi k = 0) :
    miNormalize mi = [] := by
  induction mi with
  | nil => rfl
  | cons x xs ih =>
    have hx : x = 0 := h 0
    have hxs : miNormalize xs = [] := ih fun k => h (k + 1)
    simp [miNormalize, hxs, hx]

theorem miNormalize_congr (mi nu : Multiindex)
    (h : ∀ k, miGet mi k = miGet nu k) : miNormalize mi = miNormalize nu := by
  induction mi generalizing nu with
  | nil =>
    rw [miNormalize_eq_nil nu fun k => (h k).symm]
    rfl
  | cons x xs ih =>
    cases nu with
    | nil => exact miNormalize_eq_nil _ h
    | cons y ys =>
      have hxy : x = y := h 0
      have htl : miNormalize xs = miNormalize ys := ih ys fun k => h (k + 1)
      simp only [miNormalize, htl, hxy]

theorem miNormalize_eq_self (mi : Multiindex) (h : MiNormal mi) :
    miNormalize mi = mi := by
  induction mi with
  | nil => rfl
  | cons x xs ih =>
    cases xs with
    | nil =>
      have hx : x ≠ 0 := by
        intro hx
        exact h (by simp [hx, List.getLast?])
      simp [miNormalize, hx]
    | cons y ys =>
      have hys : MiNormal (y :: ys) := by
        intro hlast
        exact h (by rwa [List.getLast?_cons_cons])
      have hself := ih hys
      rw [miNormalize_cons, hself]

theorem miGet_miInc_self (mi : Multiindex) (m : Nat) :
    miGet (miInc mi m) m = miGet mi m + 1 := by
  unfold miInc
  rw [miGet_miNormalize, miGet_miSet_self]

theorem miGet_miInc_ne (mi : Multiindex) (m k : Nat) (hk : k ≠ m) :
    miGet (miInc mi m) k = miGet mi k := by
  unfold miInc
  rw [miGet_miNormalize, miGet_miSet_ne _ _ _ _ hk]

/-- C4: for every multi-index `mu` (in canonical form) and dimension
`m`, incrementing and then decrementing dimension `m` returns `mu`
unchanged, and `decrement` fails with a domain error exactly when the
resulting degree would be negative, that is, when `mu[m] = 0`. -/
theorem multiindex_inc_dec_roundtrip (mi : Multiindex) (m : Nat)
    (h : MiNormal mi) :
    miDec (miInc mi m) m = some mi ∧ (miDec mi m = none ↔ miGet mi m = 0) := by
  constructor
  · have hget : miGet (miInc mi m) m = miGet mi m + 1 := miGet_miInc_self mi m
    have hnorm : miNormalize (miSet (miInc mi m) m (miGet mi m + 1 - 1)) = mi := by
      have hcongr : miNormalize (miSet (miInc mi m) m (miGet mi m)) =
          miNormalize mi := by
        apply miNormalize_congr
        intro k
        by_cases hk : k = m
        · subst hk
          rw [miGet_miSet_self]
        · rw [miGet_miSet_ne _ _ _ _ hk, miGet_miInc_ne _ _ _ hk]
      rw [Nat.add_sub_cancel, hcongr, miNormalize_eq_self mi h]
    unfold miDec
    rw [hget, if_neg (Nat.succ_ne_zero _), hnorm]
  · unfold miDec
    by_cases h0 : miGet mi m = 0
    · simp [h0]
    · simp [h0]

/-- C4 witness: a concrete round trip, at an index whose degree in the
chosen dimension is zero, exercising the failure case of `decrement`. -/
theorem multiindex_inc_dec_roundtrip_witness :
    MiNormal [1, 0, 2] ∧
      (miDec (miInc [1, 0, 2] 1) 1 = some [1, 0, 2] ∧
        (miDec [1, 0, 2] 1 = none ↔ miGet [1, 0, 2] 1 = 0)) :=
  ⟨by decide, multiindex_inc_dec_roundtrip [1, 0, 2] 1 (by decide)⟩

/-! ### Squared-norm closed forms -/

theorem sqnorm_from_rc_hermite (n : Nat) :
    sqnorm_from_rc rc_stoch_hermite n = (Nat.factorial n : ℚ) := by
  induction n with
  | zero => simp [sqnorm_from_rc, rc_stoch_hermite, Nat.factorial]
  | succ n ih =>
    unfold sqnorm_from_rc at ih ⊢
    rw [List.range'_concat, List.foldl_append]
    simp only [rc_stoch_hermite] at ih ⊢
    rw [ih]
    simp [Nat.factorial_succ]
    ring

theorem rc_legendre_b (n : Nat) :
    (rc_legendre n).2.1 = (2 * (n : ℚ) + 1) / ((n : ℚ) + 1) := by
  have hmax : max 0 (n : ℚ) = (n : ℚ) := max_eq_right (by positivity)
  simp [rc_legendre, rc4_to_rc3, hmax]

theorem rc_legendre_c (n : Nat) :
    (rc_legendre n).2.2 = (n : ℚ) / ((n : ℚ) + 1) := by
  have hmax : max 0 (n : ℚ) = (n : ℚ) := max_eq_right (by positivity)
  simp [rc_legendre, rc4_to_rc3, hmax]

theorem legendre_c_prod (n : Nat) (a : ℚ) :
    (List.range' 1 n).foldl (fun h i => h * (rc_legendre i).2.2) a =
      a / ((n : ℚ) + 1) := by
  induction n generalizing a with
  | zero => simp
  | succ n ih =>
    rw [List.range'_concat, List.foldl_append, ih]
    simp only [List.foldl_cons, List.foldl_nil, rc_legendre_c]
    have h1 : (n : ℚ) + 1 ≠ 0 := by positivity
    have h2 : (n : ℚ) + 2 ≠ 0 := by positivity
    field_simp
    ring

theorem sqnorm_from_rc_legendre (n : Nat) :
    sqnorm_from_rc rc_legendre n = 1 / (2 * (n : ℚ) + 1) := by
  unfold sqnorm_from_rc
  rw [legendre_c_prod, rc_legendre_b, rc_legendre_b]
  have h1 : (n : ℚ) + 1 ≠ 0 := by positivity
  have h2 : 2 * (n : ℚ) + 1 ≠ 0 := by positivity
  push_cast
  field_simp
  ring

/-- C10: the recurrence-based squared-norm computation agrees with the
closed forms: for Legendre it yields `1 / (2n + 1)` and for stochastic
Hermite `n!`, and both families are scaled so that the squared norm at
degree zero equals one. -/
theorem sqnorm_closed_forms (n : Nat) :
    sqnorm_from_rc rc_legendre n = sqnorm_legendre n ∧
      sqnorm_from_rc rc_stoch_hermite n = sqnorm_stoch_hermite n ∧
      sqnorm_legendre n = 1 / (2 * (n : ℚ) + 1) ∧
      sqnorm_stoch_hermite n = (Nat.factorial n : ℚ) ∧
      sqnorm_from_rc rc_legendre 0 = 1 ∧ sqnorm_from_rc rc_stoch_hermite 0 = 1 := by
  refine ⟨?_, ?_, rfl, rfl, ?_, ?_⟩
  · rw [sqnorm_from_rc_legendre]; rfl
  · rw [sqnorm_from_rc_hermite]; rfl
  · rw [sqnorm_from_rc_legendre]; norm_num
  · rw [sqnorm_from_rc_hermite]; norm_num [Nat.factorial]

/-! ### Association-list lemmas -/

theorem lookupKey_setKey {α : Type _} (l : List (Multiindex × α)) (mu : Multiindex)
    (x : α) (k : Multiindex) :
    lookupKey (setKey l mu x) k = if k = mu then some x else lookupKey l k := by
  induction l with
  | nil =>
    by_cases hk : k = mu
    · subst hk; simp [setKey, lookupKey]
    · have hmk : ¬mu = k := fun h => hk h.symm
      simp [setKey, lookupKey, hk, hmk]
  | cons p rest ih =>
    obtain ⟨a, b⟩ := p
    by_cases ha : a = mu
    · subst ha
      by_cases hk : k = a
      · subst hk
        simp [setKey, lookupKey]
      · have hak : ¬a = k := fun h => hk h.symm
        simp [setKey, lookupKey, hk, hak]
    · by_cases hak : a = k
      · subst hak
        have hk : ¬a = mu := ha
        have hkm : ¬a = mu := ha
        simp [setKey, lookupKey, ha, hkm]
      · by_cases hk : k = mu
        · subst hk
          simp [setKey, lookupKey, ha, hak, ih]
        · simp [setKey, lookupKey, ha, hak, hk, ih]

theorem keysOf_setKey_of_mem {α : Type _} (l : List (Multiindex × α))
    (mu : Multiindex) (x : α) (h : mu ∈ keysOf l) :
    keysOf (setKey l mu x) = keysOf l := by
  induction l with
  | nil => simp [keysOf] at h
  | cons p rest ih =>
    obtain ⟨a, b⟩ := p
    by_cases ha : a = mu
    · simp [setKey, if_pos ha, keysOf, ha]
    · have hmem : mu ∈ keysOf rest := by
        simp only [keysOf, List.map_cons, List.mem_cons] at h
        rcases h with h | h
        · exact absurd h.symm ha
        · exact h
      simp only [setKey, if_neg ha, keysOf, List.map_cons]
      exact congrArg (List.cons a) (ih hmem)

theorem mem_keysOf_of_lookup {α : Type _} (l : List (Multiindex × α))
    (mu : Multiindex) (c : α) (h : lookupKey l mu = some c) : mu ∈ keysOf l := by
  induction l with
  | nil => cases h
  | cons p rest ih =>
    obtain ⟨a, b⟩ := p
    simp only [lookupKey] at h
    simp only [keysOf, List.map_cons, List.mem_cons]
    by_cases ha : a = mu
    · exact Or.inl ha.symm
    · rw [if_neg ha] at h
      exact Or.inr (ih h)

theorem lookupKey_foldl_stepSet_of_notMem {α : Type _} (g : Multiindex → Option α)
    (Lambda : List Multiindex) (l0 : List (Multiindex × α)) (mu : Multiindex)
    (h : mu ∉ Lambda) :
    lookupKey (Lambda.foldl (stepSet g) l0) mu = lookupKey l0 mu := by
  induction Lambda generalizing l0 with
  | nil => rfl
  | cons a rest ih =>
    have hne : ¬mu = a := fun he => h (he ▸ List.mem_cons_self a rest)
    have hnr : mu ∉ rest := fun hm => h (List.mem_cons_of_mem a hm)
    simp only [List.foldl_cons]
    rw [ih _ hnr]
    unfold stepSet
    cases g a with
    | none => rfl
    | some x => rw [lookupKey_setKey, if_neg hne]

theorem lookupKey_foldl_stepSet_of_mem {α : Type _} (g : Multiindex → Option α)
    (Lambda : List Multiindex) (l0 : List (Multiindex × α)) (mu : Multiindex)
    (x : α) (hnd : Lambda.Nodup) (hmu : mu ∈ Lambda) (hx : g mu = some x) :
    lookupKey (Lambda.foldl (stepSet g) l0) mu = some x := by
  induction Lambda generalizing l0 with
  | nil => cases hmu
  | cons a rest ih =>
    simp only [List.foldl_cons]
    rcases List.mem_cons.mp hmu with he | hm
    · subst he
      have hnr : mu ∉ rest := (List.nodup_cons.mp hnd).1
      rw [lookupKey_foldl_stepSet_of_notMem _ _ _ _ hnr]
      unfold stepSet
      rw [hx, lookupKey_setKey, if_pos rfl]
    · exact ih _ (List.nodup_cons.mp hnd).2 hm

theorem keysOf_foldl_stepSet {α : Type _} (g : Multiindex → Option α)
    (Lambda : List Multiindex) (l0 : List (Multiindex × α))
    (h : ∀ mu ∈ Lambda, mu ∈ keysOf l0) :
    keysOf (Lambda.foldl (stepSet g) l0) = keysOf l0 := by
  induction Lambda generalizing l0 with
  | nil => rfl
  | cons a rest ih =>
    simp only [List.foldl_cons]
    have hk : keysOf (stepSet g l0 a) = keysOf l0 := by
      unfold stepSet
      cases g a with
      | none => rfl
      | some x => exact keysOf_setKey_of_mem _ _ _ (h a (List.mem_cons_self a rest))
    rw [ih _ fun mu hm => hk ▸ h mu (List.mem_cons_of_mem a hm), hk]

theorem keysOf_map_value {α β : Type _} (l : List (Multiindex × α))
    (f : Multiindex × α → β) :
    keysOf (l.map fun p => (p.1, f p)) = keysOf l := by
  simp [keysOf, List.map_map, Function.comp]

theorem foldl_add_map_sum {γ Vec : Type _} [AddCommMonoid Vec] (f : γ → Vec)
    (l : List γ) (init : Vec) :
    l.foldl (fun acc m => acc + f m) init = init + (l.map f).sum := by
  induction l generalizing init with
  | nil => simp
  | cons a rest ih => simp [ih, add_assoc]

/-! ### MultiOperator theorems -/

/-- C5: `MultiOperator.apply` returns a MultiVector whose active index
set equals the active index set of the input: every key of the result
is an active index of the input and vice versa. -/
theorem multiOperator_apply_active_set {F B Vec : Type _} [AddCommGroup Vec]
    [Module ℚ Vec] (op : MultiOperator F B Vec) (w : MultiVector B Vec) :
    (op.apply w).active_indices = w.active_indices ∧
      ∀ mu, mu ∈ (op.apply w).active_indices ↔ mu ∈ w.active_indices := by
  have h : (op.apply w).active_indices = w.active_indices := by
    show keysOf
        ((w.active_indices).foldl
          (stepSet fun nu => some (op.applyAt w w.active_indices (op.maxm w) nu))
          w.zeroLike.entries) = keysOf w.entries
    rw [keysOf_foldl_stepSet]
    · exact keysOf_map_value _ _
    · intro nu hnu
      show nu ∈ keysOf (w.entries.map fun p => (p.1, (0 : Vec)))
      rw [keysOf_map_value]
      exact hnu
  exact ⟨h, fun mu => by rw [h]⟩

/-- C1: for every active `mu`, the result component of
`MultiOperator.apply` is the mean-field contribution
`A0 * w[mu]` plus, for every stochastic dimension `m` below the
effective order, the operator `A_m` applied to
`-beta[0] * w[mu] + beta[1] * w[mu + e_m] + beta[-1] * w[mu - e_m]`
with `beta = get_beta(mu[m])`, where each neighbor term is present
exactly when that neighbor is active and is omitted entirely
otherwise. -/
theorem multiOperator_apply_component {F B Vec : Type _} [AddCommGroup Vec]
    [Module ℚ Vec] (op : MultiOperator F B Vec) (w : MultiVector B Vec)
    (mu : Multiindex) (hnd : w.active_indices.Nodup)
    (hmu : mu ∈ w.active_indices) :
    (op.apply w).get mu =
      op.assemble_0 w.basis op.coeff_field.mean_func (w.get mu) +
        ((List.range (op.maxm w)).map fun m =>
          op.assemble_m w.basis (op.coeff_field.term m).1
            ((-((op.coeff_field.term m).2.get_beta (miGet mu m)).1) • w.get mu +
              (if miInc mu m ∈ w.active_indices then
                ((op.coeff_field.term m).2.get_beta (miGet mu m)).2.1 •
                  w.get (miInc mu m)
              else 0) +
              (match miDec mu m with
                | some mu2 =>
                  if mu2 ∈ w.active_indices then
                    ((op.coeff_field.term m).2.get_beta (miGet mu m)).2.2 •
                      w.get mu2
                  else 0
                | none => 0))).sum := by
  have hterm : ∀ m, op.termContribution w w.active_indices mu m =
      op.assemble_m w.basis (op.coeff_field.term m).1
        ((-((op.coeff_field.term m).2.get_beta (miGet mu m)).1) • w.get mu +
          (if miInc mu m ∈ w.active_indices then
            ((op.coeff_field.term m).2.get_beta (miGet mu m)).2.1 •
              w.get (miInc mu m)
          else 0) +
          (match miDec mu m with
            | some mu2 =>
              if mu2 ∈ w.active_indices then
                ((op.coeff_field.term m).2.get_beta (miGet mu m)).2.2 • w.get mu2
              else 0
            | none => 0)) := by
    intro m
    simp only [MultiOperator.termContribution]
    congr 1
    cases hd : miDec mu m with
    | none =>
      by_cases h1 : miInc mu m ∈ w.active_indices <;> simp [h1]
    | some mu2 =>
      by_cases h1 : miInc mu m ∈ w.active_indices <;>
        by_cases h2 : mu2 ∈ w.active_indices <;> simp [h1, h2]
  show (lookupKey (op.apply w).entries mu).getD 0 = _
  rw [show (op.apply w).entries =
      (w.active_indices).foldl
        (stepSet fun nu => some (op.applyAt w w.active_indices (op.maxm w) nu))
        w.zeroLike.entries from rfl]
  rw [lookupKey_foldl_stepSet_of_mem
    (fun nu => some (op.applyAt w w.active_indices (op.maxm w) nu)) _ _ _ _
    hnd hmu rfl, Option.getD_some]
  show (List.range (op.maxm w)).foldl
      (fun cur_v m => cur_v + op.termContribution w w.active_indices mu m)
      (op.assemble_0 w.basis op.coeff_field.mean_func (w.get mu)) = _
  rw [foldl_add_map_sum]
  exact congrArg
    (fun f : Nat → Vec =>
      op.assemble_0 w.basis op.coeff_field.mean_func (w.get mu) +
        (List.map f (List.range (op.maxm w))).sum)
    (funext hterm)

/-- C1 witness: a concrete operator application with both neighbor
cases exercised. -/
theorem multiOperator_apply_component_witness :
    wW.active_indices.Nodup ∧ [1] ∈ wW.active_indices ∧
      (opW.apply wW).get [1] =
        opW.assemble_0 wW.basis opW.coeff_field.mean_func (wW.get [1]) +
          ((List.range (opW.maxm wW)).map fun m =>
            opW.assemble_m wW.basis (opW.coeff_field.term m).1
              ((-((opW.coeff_field.term m).2.get_beta (miGet [1] m)).1) •
                  wW.get [1] +
                (if miInc [1] m ∈ wW.active_indices then
                  ((opW.coeff_field.term m).2.get_beta (miGet [1] m)).2.1 •
                    wW.get (miInc [1] m)
                else 0) +
                (match miDec [1] m with
                  | some mu2 =>
                    if mu2 ∈ wW.active_indices then
                      ((opW.coeff_field.term m).2.get_beta (miGet [1] m)).2.2 •
                        wW.get mu2
                    else 0
                  | none => 0))).sum :=
  ⟨by decide, by decide,
    multiOperator_apply_component opW wW [1] (by decide) (by decide)⟩

theorem maxm_le_len {F B Vec : Type _} (op : MultiOperator F B Vec)
    (w : MultiVector B Vec) : op.maxm w ≤ op.coeff_field.len := by
  unfold MultiOperator.maxm
  by_cases h : op.coeff_field.len < w.max_order
  · rw [if_pos h]
  · rw [if_neg h]
    exact Nat.le_of_not_lt h

theorem applyAtChecked_eq_some {F B Vec : Type _} [AddCommGroup Vec]
    [Module ℚ Vec] (op : MultiOperator F B Vec) (w : MultiVector B Vec)
    (Lambda : List Multiindex) (mu : Multiindex) (maxm : Nat)
    (h : maxm ≤ op.coeff_field.len) :
    op.applyAtChecked w Lambda maxm mu = some (op.applyAt w Lambda maxm mu) := by
  unfold MultiOperator.applyAtChecked MultiOperator.applyAt
  induction maxm with
  | zero => rfl
  | succ n ih =>
    rw [List.range_succ, List.foldl_append, List.foldl_append,
      ih (Nat.le_of_succ_le h)]
    have hn : n < op.coeff_field.len := h
    simp [CoefficientField.getTerm?, hn, MultiOperator.termContribution,
      Option.bind]

theorem foldl_option_set_eq {α : Type _} (chk : Multiindex → Option α)
    (pln : Multiindex → α) (hc : ∀ mu, chk mu = some (pln mu))
    (Lambda : List Multiindex) (l0 : List (Multiindex × α)) :
    Lambda.foldl
      (fun ol mu => do
        let l ← ol
        let x ← chk mu
        pure (setKey l mu x))
      (some l0) =
      some (Lambda.foldl (fun l mu => setKey l mu (pln mu)) l0) := by
  induction Lambda generalizing l0 with
  | nil => rfl
  | cons a rest ih =>
    simp only [List.foldl_cons, Option.bind_eq_bind, Option.some_bind, hc a]
    exact ih _

theorem applyChecked_eq_some {F B Vec : Type _} [AddCommGroup Vec]
    [Module ℚ Vec] (op : MultiOperator F B Vec) (w : MultiVector B Vec) :
    op.applyChecked w = some (op.apply w) := by
  show ((w.active_indices).foldl
      (fun ol mu => do
        let l ← ol
        let x ← op.applyAtChecked w w.active_indices (op.maxm w) mu
        pure (setKey l mu x))
      (some w.zeroLike.entries)).bind
      (fun entries => some (⟨w.basis, entries⟩ : MultiVector B Vec)) =
    some (op.apply w)
  rw [foldl_option_set_eq
    (fun mu => op.applyAtChecked w w.active_indices (op.maxm w) mu)
    (fun mu => op.applyAt w w.active_indices (op.maxm w) mu)
    (fun mu => applyAtChecked_eq_some op w _ mu _ (maxm_le_len op w))]
  rfl

/-- C3: when the MultiVector order exceeds the coefficient-field
length, `MultiOperator.apply` does not fail: the stochastic-dimension
loop is truncated to the coefficient-field length and a result is
returned; every bounds-checked coefficient access succeeds. -/
theorem multiOperator_apply_truncates {F B Vec : Type _} [AddCommGroup Vec]
    [Module ℚ Vec] (op : MultiOperator F B Vec) (w : MultiVector B Vec)
    (h : op.coeff_field.len < w.max_order) :
    op.maxm w = op.coeff_field.len ∧ op.applyChecked w = some (op.apply w) :=
  ⟨by simp [MultiOperator.maxm, h], applyChecked_eq_some op w⟩

/-- C3 witness: a MultiVector of order one over an empty coefficient
field. -/
theorem multiOperator_apply_truncates_witness :
    opShort.coeff_field.len < wW.max_order ∧
      (opShort.maxm wW = opShort.coeff_field.len ∧
        opShort.applyChecked wW = some (opShort.apply wW)) :=
  ⟨by decide, multiOperator_apply_truncates opShort wW (by decide)⟩

/-- C6: `PreconditioningOperator.apply` assigns, for every active `mu`,
only the mean-field solve operator assembled from the mean coefficient
on the basis of `w[mu]` applied to `w[mu]`; the component depends on no
other index and on no stochastic-dimension operator, and the active set
is unchanged. -/
theorem preconditioning_apply_meanfield {F B Vec : Type _} [Zero Vec]
    (P : PreconditioningOperator F B Vec) (w : MultiVectorPC B Vec)
    (mu : Multiindex) (c : Component B Vec)
    (hnd : w.active_indices.Nodup) (hc : lookupKey w.entries mu = some c) :
    lookupKey (P.apply w).entries mu =
      some ⟨c.basis, P.assemble_solver c.basis P.mean_func c.vec⟩ ∧
      (P.apply w).active_indices = w.active_indices := by
  constructor
  · have hmu : mu ∈ w.active_indices := mem_keysOf_of_lookup _ _ _ hc
    have hval : P.applyValue w mu =
        some ⟨c.basis, P.assemble_solver c.basis P.mean_func c.vec⟩ := by
      simp [PreconditioningOperator.applyValue, hc]
    exact lookupKey_foldl_stepSet_of_mem _ _ _ _ _ hnd hmu hval
  · show keysOf
        ((w.active_indices).foldl (stepSet (P.applyValue w))
          (w.entries.map fun p => (p.1, ⟨p.2.basis, 0⟩))) = keysOf w.entries
    rw [keysOf_foldl_stepSet]
    · exact keysOf_map_value _ _
    · intro nu hnu
      rw [keysOf_map_value]
      exact hnu

/-- C6 witness: a concrete preconditioner application. -/
theorem preconditioning_apply_meanfield_witness :
    wPC.active_indices.Nodup ∧ lookupKey wPC.entries [] = some ⟨(), 3⟩ ∧
      (lookupKey (pcW.apply wPC).entries [] =
        some ⟨(), pcW.assemble_solver () pcW.mean_func 3⟩ ∧
        (pcW.apply wPC).active_indices = wPC.active_indices) :=
  ⟨by decide, by decide,
    preconditioning_apply_meanfield pcW wPC [] ⟨(), 3⟩ (by decide) (by decide)⟩

/-! ### AdaptiveSolver loop lemmas -/

theorem iterSim1_length {W : Type _} (o : Oracle W) (start k : Nat)
    (st : ASState W) :
    (iterSim1 o start k st).length =
      st.simStats.length + (if k = 0 ∨ start < k then 1 else 0) := by
  unfold iterSim1
  split_ifs <;> simp

theorem iterStep_exit_maxRef {W : Type _} (p : ASParams) (o : Oracle W)
    (start k : Nat) (st : ASState W) (h : p.maxRefinements < k) :
    iterStep p o start k st =
      (iterBase p o start k st, some ExitKind.exhaustedMaxRef) := by
  simp only [iterStep]
  rw [if_pos h]

theorem iterStep_exit_dof {W : Type _} (p : ASParams) (o : Oracle W)
    (start k : Nat) (st : ASState W) (h1 : ¬p.maxRefinements < k)
    (h2 : p.maxDof ≤ (((iterSim1 o start k st).getD k default).dofs : ℚ)) :
    iterStep p o start k st =
      (iterBase p o start k st, some ExitKind.exhaustedDof) := by
  simp only [iterStep]
  rw [if_neg h1, if_pos h2]

theorem iterStep_exit_converged {W : Type _} (p : ASParams) (o : Oracle W)
    (start k : Nat) (st : ASState W) (h1 : ¬p.maxRefinements < k)
    (h2 : ¬p.maxDof ≤ (((iterSim1 o start k st).getD k default).dofs : ℚ))
    (h3 : iterXi o st.w ≤ p.errorEps) :
    iterStep p o start k st =
      (iterBase p o start k st, some ExitKind.converged) := by
  simp only [iterStep]
  rw [if_neg h1, if_neg h2, if_pos h3]

theorem iterStep_no_marking {W : Type _} (p : ASParams) (o : Oracle W)
    (start k : Nat) (st : ASState W) (h1 : ¬p.maxRefinements < k)
    (h2 : ¬p.maxDof ≤ (((iterSim1 o start k st).getD k default).dofs : ℚ))
    (h3 : ¬iterXi o st.w ≤ p.errorEps) (h4 : ¬k < p.maxRefinements) :
    iterStep p o start k st = (iterBase p o start k st, none) := by
  simp only [iterStep]
  rw [if_neg h1, if_neg h2, if_neg h3, if_neg h4]

theorem iterStep_marking {W : Type _} (p : ASParams) (o : Oracle W)
    (start k : Nat) (st : ASState W) (h1 : ¬p.maxRefinements < k)
    (h2 : ¬p.maxDof ≤ (((iterSim1 o start k st).getD k default).dofs : ℚ))
    (h3 : ¬iterXi o st.w ≤ p.errorEps) (h4 : k < p.maxRefinements)
    (hu : p.doUniformRefinement = false) :
    (iterStep p o start k st).1.nMark = st.nMark + 1 ∧
      (iterStep p o start k st).1.nRefine = st.nRefine + 1 ∧
      (iterStep p o start k st).2 = none := by
  simp only [iterStep]
  rw [if_neg h1, if_neg h2, if_neg h3, if_pos h4, if_pos hu]
  exact ⟨rfl, rfl, rfl⟩

theorem iterStep_nSolve {W : Type _} (p : ASParams) (o : Oracle W)
    (start k : Nat) (st : ASState W) :
    (iterStep p o start k st).1.nSolve = st.nSolve + 1 ∧
      (iterStep p o start k st).1.nEstimate = st.nEstimate + 1 := by
  simp only [iterStep]
  split_ifs <;> exact ⟨rfl, rfl⟩

theorem iterStep_nMark_of_not_lt {W : Type _} (p : ASParams) (o : Oracle W)
    (start k : Nat) (st : ASState W) (h : ¬k < p.maxRefinements) :
    (iterStep p o start k st).1.nMark = st.nMark ∧
      (iterStep p o start k st).1.nRefine = st.nRefine := by
  simp only [iterStep]
  split_ifs <;> exact ⟨rfl, rfl⟩

theorem iterStep_wHistory {W : Type _} (p : ASParams) (o : Oracle W)
    (start k : Nat) (st : ASState W) :
    (iterStep p o start k st).1.wHistory =
      st.wHistory.map fun h =>
        if k = 0 ∨ start < k then h ++ [solveW o st.w] else h := by
  simp only [iterStep, iterBase]
  split_ifs <;> rfl

theorem iterStep_simStats_length {W : Type _} (p : ASParams) (o : Oracle W)
    (start k : Nat) (st : ASState W) :
    (iterStep p o start k st).1.simStats.length =
      st.simStats.length + (if k = 0 ∨ start < k then 1 else 0) := by
  have hlen : (iterStep p o start k st).1.simStats.length =
      (iterSim1 o start k st).length := by
    simp only [iterStep]
    split_ifs with h1 h2 h3 h4 h5 hc
    · rfl
    · rfl
    · rfl
    · show ((iterSim1 o start k st).dropLast ++ [_]).length = _
      rw [show iterSim1 o start k st = st.simStats ++ [iterRecord o st.w] from by
        unfold iterSim1; rw [if_pos hc]]
      rw [List.dropLast_concat]
      simp
    · rfl
    · rfl
    · rfl
  rw [hlen, iterSim1_length]

theorem iterStep_align {W : Type _} (p : ASParams) (o : Oracle W)
    (start k : Nat) (st : ASState W) (h : List W) (hh : st.wHistory = some h)
    (hlen : h.length = st.simStats.length) :
    ∃ h', (iterStep p o start k st).1.wHistory = some h' ∧
      h'.length = (iterStep p o start k st).1.simStats.length := by
  refine ⟨if k = 0 ∨ start < k then h ++ [solveW o st.w] else h, ?_, ?_⟩
  · rw [iterStep_wHistory, hh]
    rfl
  · rw [iterStep_simStats_length]
    split_ifs <;> simp [hlen]

theorem runLoop_align {W : Type _} (p : ASParams) (o : Oracle W) (start : Nat) :
    ∀ (fuel k : Nat) (st : ASState W) (h : List W), st.wHistory = some h →
      h.length = st.simStats.length →
      ∃ h', (runLoop p o start fuel k st).1.wHistory = some h' ∧
        h'.length = (runLoop p o start fuel k st).1.simStats.length := by
  intro fuel
  induction fuel with
  | zero => exact fun k st h hh hl => ⟨h, hh, hl⟩
  | succ n ih =>
    intro k st h hh hl
    obtain ⟨h', hh', hl'⟩ := iterStep_align p o start k st h hh hl
    simp only [runLoop]
    cases he : iterStep p o start k st with
    | mk st1 e =>
      rw [he] at hh' hl'
      cases e with
      | none => exact ih (k + 1) st1 h' hh' hl'
      | some ex => exact ⟨h', hh', hl'⟩

theorem runLoop_one_fst {W : Type _} (p : ASParams) (o : Oracle W)
    (start k : Nat) (st : ASState W) :
    (runLoop p o start 1 k st).1 = (iterStep p o start k st).1 := by
  simp only [runLoop]
  cases he : iterStep p o start k st with
  | mk st1 e => cases e <;> simp [runLoop]

/-- C2: after solve and estimate, the exit checks run in source order:
first `k > max_refinements` (EXHAUSTED), then `DOFS >= max_dof`
(EXHAUSTED), then `xi <= error_eps` (CONVERGED); marking and
refinement run only when no check fires and `k < max_refinements`; and
with `max_dof` below the DOF count of the first solve the loop
terminates after iteration 0 with one statistics record whose marking
counts are all zero and with no marking or refinement call. -/
theorem adaptive_solver_exit_checks {W : Type _} (p : ASParams) (o : Oracle W)
    (start k : Nat) (st : ASState W) (w0 : W) (hist0 : Option (List W)) :
    (p.maxRefinements < k →
      iterStep p o start k st =
        (iterBase p o start k st, some ExitKind.exhaustedMaxRef) ∧
        exitLabel (some ExitKind.exhaustedMaxRef) = "EXHAUSTED") ∧
    (¬p.maxRefinements < k →
      p.maxDof ≤ (((iterSim1 o start k st).getD k default).dofs : ℚ) →
      iterStep p o start k st =
        (iterBase p o start k st, some ExitKind.exhaustedDof) ∧
        exitLabel (some ExitKind.exhaustedDof) = "EXHAUSTED") ∧
    (¬p.maxRefinements < k →
      ¬p.maxDof ≤ (((iterSim1 o start k st).getD k default).dofs : ℚ) →
      iterXi o st.w ≤ p.errorEps →
      iterStep p o start k st =
        (iterBase p o start k st, some ExitKind.converged) ∧
        exitLabel (some ExitKind.converged) = "CONVERGED") ∧
    (¬p.maxRefinements < k →
      ¬p.maxDof ≤ (((iterSim1 o start k st).getD k default).dofs : ℚ) →
      ¬iterXi o st.w ≤ p.errorEps →
      (¬k < p.maxRefinements →
        iterStep p o start k st = (iterBase p o start k st, none)) ∧
      (k < p.maxRefinements → p.doUniformRefinement = false →
        (iterStep p o start k st).1.nMark = st.nMark + 1 ∧
        (iterStep p o start k st).1.nRefine = st.nRefine + 1 ∧
        (iterStep p o start k st).2 = none)) ∧
    (p.maxDof < (o.dofsOf (solveW o w0) : ℚ) →
      (AdaptiveSolver p o w0 [] hist0).2 = some ExitKind.exhaustedDof ∧
      exitLabel (AdaptiveSolver p o w0 [] hist0).2 = "EXHAUSTED" ∧
      (AdaptiveSolver p o w0 [] hist0).1.simStats = [iterRecord o w0] ∧
      (iterRecord o w0).markingRes = 0 ∧ (iterRecord o w0).markingProj = 0 ∧
      (iterRecord o w0).markingMi = 0 ∧
      (AdaptiveSolver p o w0 [] hist0).1.nMark = 0 ∧
      (AdaptiveSolver p o w0 [] hist0).1.nRefine = 0 ∧
      (AdaptiveSolver p o w0 [] hist0).1.nSolve = 1) := by
  refine ⟨fun h => ⟨iterStep_exit_maxRef p o start k st h, rfl⟩,
    fun h1 h2 => ⟨iterStep_exit_dof p o start k st h1 h2, rfl⟩,
    fun h1 h2 h3 => ⟨iterStep_exit_converged p o start k st h1 h2 h3, rfl⟩,
    fun h1 h2 h3 =>
      ⟨fun h4 => iterStep_no_marking p o start k st h1 h2 h3 h4,
       fun h4 hu => iterStep_marking p o start k st h1 h2 h3 h4 hu⟩,
    fun hd => ?_⟩
  have hst : iterStep p o 0 0 (⟨w0, [], hist0, 0, 0, 0, 0⟩ : ASState W) =
      (iterBase p o 0 0 ⟨w0, [], hist0, 0, 0, 0, 0⟩,
        some ExitKind.exhaustedDof) := by
    apply iterStep_exit_dof
    · exact Nat.not_lt_zero _
    · have hsim : iterSim1 o 0 0 (⟨w0, [], hist0, 0, 0, 0, 0⟩ : ASState W) =
          [iterRecord o w0] := by
        unfold iterSim1
        rw [if_pos (Or.inl rfl)]
        rfl
      rw [hsim]
      exact le_of_lt hd
  have hrun : AdaptiveSolver p o w0 [] hist0 =
      (iterBase p o 0 0 ⟨w0, [], hist0, 0, 0, 0, 0⟩,
        some ExitKind.exhaustedDof) := by
    show runLoop p o 0 (p.maxRefinements + 1) 0 ⟨w0, [], hist0, 0, 0, 0, 0⟩ = _
    simp only [runLoop, hst]
  rw [hrun]
  refine ⟨rfl, rfl, ?_, rfl, rfl, rfl, rfl, rfl, rfl⟩
  show iterSim1 o 0 0 ⟨w0, [], hist0, 0, 0, 0, 0⟩ = [iterRecord o w0]
  unfold iterSim1
  rw [if_pos (Or.inl rfl)]
  rfl

/-- C2 witness: concrete parameters with the DOF budget below the DOF
count reported by the oracle. -/
theorem adaptive_solver_exit_checks_witness :
    (pLowDof.maxRefinements < 1 →
      iterStep pLowDof oU 1 1 stU =
        (iterBase pLowDof oU 1 1 stU, some ExitKind.exhaustedMaxRef) ∧
        exitLabel (some ExitKind.exhaustedMaxRef) = "EXHAUSTED") ∧
    (¬pLowDof.maxRefinements < 1 →
      pLowDof.maxDof ≤ (((iterSim1 oU 1 1 stU).getD 1 default).dofs : ℚ) →
      iterStep pLowDof oU 1 1 stU =
        (iterBase pLowDof oU 1 1 stU, some ExitKind.exhaustedDof) ∧
        exitLabel (some ExitKind.exhaustedDof) = "EXHAUSTED") ∧
    (¬pLowDof.maxRefinements < 1 →
      ¬pLowDof.maxDof ≤ (((iterSim1 oU 1 1 stU).getD 1 default).dofs : ℚ) →
      iterXi oU stU.w ≤ pLowDof.errorEps →
      iterStep pLowDof oU 1 1 stU =
        (iterBase pLowDof oU 1 1 stU, some ExitKind.converged) ∧
        exitLabel (some ExitKind.converged) = "CONVERGED") ∧
    (¬pLowDof.maxRefinements < 1 →
      ¬pLowDof.maxDof ≤ (((iterSim1 oU 1 1 stU).getD 1 default).dofs : ℚ) →
      ¬iterXi oU stU.w ≤ pLowDof.errorEps →
      (¬1 < pLowDof.maxRefinements →
        iterStep pLowDof oU 1 1 stU = (iterBase pLowDof oU 1 1 stU, none)) ∧
      (1 < pLowDof.maxRefinements → pLowDof.doUniformRefinement = false →
        (iterStep pLowDof oU 1 1 stU).1.nMark = stU.nMark + 1 ∧
        (iterStep pLowDof oU 1 1 stU).1.nRefine = stU.nRefine + 1 ∧
        (iterStep pLowDof oU 1 1 stU).2 = none)) ∧
    (pLowDof.maxDof < (oU.dofsOf (solveW oU ()) : ℚ) →
      (AdaptiveSolver pLowDof oU () [] (some [])).2 =
        some ExitKind.exhaustedDof ∧
      exitLabel (AdaptiveSolver pLowDof oU () [] (some [])).2 = "EXHAUSTED" ∧
      (AdaptiveSolver pLowDof oU () [] (some [])).1.simStats =
        [iterRecord oU ()] ∧
      (iterRecord oU ()).markingRes = 0 ∧ (iterRecord oU ()).markingProj = 0 ∧
      (iterRecord oU ()).markingMi = 0 ∧
      (AdaptiveSolver pLowDof oU () [] (some [])).1.nMark = 0 ∧
      (AdaptiveSolver pLowDof oU () [] (some [])).1.nRefine = 0 ∧
      (AdaptiveSolver pLowDof oU () [] (some [])).1.nSolve = 1) :=
  adaptive_solver_exit_checks pLowDof oU 1 1 stU () (some [])

/-- C7: with a pre-existing statistics history the loop resumes at
`max(len(sim_stats) - 1, 0)`; a statistics record and a solution-history
entry are appended in an iteration exactly when `refinement == 0` or
`start_iteration < refinement`, so statistics and solution history stay
index-aligned when they start aligned. -/
theorem adaptive_solver_resume_semantics {W : Type _} (p : ASParams)
    (o : Oracle W) (w0 : W) (s0 : List StatsRec) (h0 : List W)
    (start k : Nat) (st : ASState W) :
    startIteration s0 = max (s0.length - 1) 0 ∧
    AdaptiveSolver p o w0 s0 (some h0) =
      runLoop p o (startIteration s0) (p.maxRefinements + 1 - startIteration s0)
        (startIteration s0) ⟨w0, s0, some h0, 0, 0, 0, 0⟩ ∧
    (iterStep p o start k st).1.simStats.length =
      st.simStats.length + (if k = 0 ∨ start < k then 1 else 0) ∧
    (∀ h, st.wHistory = some h →
      (iterStep p o start k st).1.wHistory =
        some (if k = 0 ∨ start < k then h ++ [solveW o st.w] else h)) ∧
    (h0.length = s0.length →
      ∃ h', (AdaptiveSolver p o w0 s0 (some h0)).1.wHistory = some h' ∧
        h'.length = (AdaptiveSolver p o w0 s0 (some h0)).1.simStats.length) := by
  refine ⟨rfl, rfl, iterStep_simStats_length p o start k st, ?_, ?_⟩
  · intro h hh
    rw [iterStep_wHistory, hh]
    rfl
  · intro hlen
    exact runLoop_align p o (startIteration s0) _ (startIteration s0)
      ⟨w0, s0, some h0, 0, 0, 0, 0⟩ h0 rfl hlen

/-- C7 witness: a concrete resumed run with a two-record history. -/
theorem adaptive_solver_resume_semantics_witness :
    startIteration sTwo = max (sTwo.length - 1) 0 ∧
    AdaptiveSolver pU oU () sTwo (some hTwo) =
      runLoop pU oU (startIteration sTwo)
        (pU.maxRefinements + 1 - startIteration sTwo) (startIteration sTwo)
        ⟨(), sTwo, some hTwo, 0, 0, 0, 0⟩ ∧
    (iterStep pU oU 1 1 stU).1.simStats.length =
      stU.simStats.length + (if 1 = 0 ∨ 1 < 1 then 1 else 0) ∧
    (∀ h, stU.wHistory = some h →
      (iterStep pU oU 1 1 stU).1.wHistory =
        some (if 1 = 0 ∨ 1 < 1 then h ++ [solveW oU stU.w] else h)) ∧
    (hTwo.length = sTwo.length →
      ∃ h', (AdaptiveSolver pU oU () sTwo (some hTwo)).1.wHistory = some h' ∧
        h'.length =
          (AdaptiveSolver pU oU () sTwo (some hTwo)).1.simStats.length) :=
  adaptive_solver_resume_semantics pU oU () sTwo hTwo 1 1 stU

/-- C8: with `max_refinements = 0` and `error_eps = 0` on a fresh run,
the loop performs exactly one solve and one estimate, appends exactly
one statistics record, and never calls marking or refinement. -/
theorem adaptive_solver_one_iteration {W : Type _} (p : ASParams) (o : Oracle W)
    (w0 : W) (hist0 : Option (List W)) (hmr : p.maxRefinements = 0)
    (heps : p.errorEps = 0) :
    (AdaptiveSolver p o w0 [] hist0).1.nSolve = 1 ∧
      (AdaptiveSolver p o w0 [] hist0).1.nEstimate = 1 ∧
      (AdaptiveSolver p o w0 [] hist0).1.simStats.length = 1 ∧
      (AdaptiveSolver p o w0 [] hist0).1.nMark = 0 ∧
      (AdaptiveSolver p o w0 [] hist0).1.nRefine = 0 := by
  have hrun : (AdaptiveSolver p o w0 [] hist0).1 =
      (iterStep p o (startIteration []) 0
        (⟨w0, [], hist0, 0, 0, 0, 0⟩ : ASState W)).1 := by
    show (runLoop p o (startIteration [])
        (p.maxRefinements + 1 - startIteration [])
        (startIteration []) ⟨w0, [], hist0, 0, 0, 0, 0⟩).1 = _
    rw [show p.maxRefinements + 1 - startIteration [] = 1 from by
      rw [hmr]; rfl]
    exact runLoop_one_fst p o (startIteration []) 0 _
  have hnm : ¬(0 : Nat) < p.maxRefinements := by rw [hmr]; exact Nat.lt_irrefl 0
  rw [hrun]
  refine ⟨(iterStep_nSolve p o _ 0 _).1, (iterStep_nSolve p o _ 0 _).2, ?_,
    (iterStep_nMark_of_not_lt p o _ 0 _ hnm).1,
    (iterStep_nMark_of_not_lt p o _ 0 _ hnm).2⟩
  rw [iterStep_simStats_length]
  rw [if_pos (Or.inl rfl)]
  rfl

/-- C8 witness: a concrete run with no refinements allowed. -/
theorem adaptive_solver_one_iteration_witness :
    pZero.maxRefinements = 0 ∧ pZero.errorEps = 0 ∧
      ((AdaptiveSolver pZero oU () [] (some [])).1.nSolve = 1 ∧
        (AdaptiveSolver pZero oU () [] (some [])).1.nEstimate = 1 ∧
        (AdaptiveSolver pZero oU () [] (some [])).1.simStats.length = 1 ∧
        (AdaptiveSolver pZero oU () [] (some [])).1.nMark = 0 ∧
        (AdaptiveSolver pZero oU () [] (some [])).1.nRefine = 0) :=
  ⟨rfl, rfl, adaptive_solver_one_iteration pZero oU () (some []) rfl rfl⟩

/-! ### Residual estimator: the floor-division defect -/

/-- C9: at a concrete input with mesh minimum of the mean coefficient 2
and mesh maximum of the dimension coefficient 3, the code weights the
projection errors by `3 // 2 = 1` (Python float floor division), while
the claim and the docstring of the source prescribe the ratio
`3 / 2`; the computed pair therefore differs from the prescribed one. -/
theorem residual_projection_floor_div :
    evaluateLocalProjectionError bkQ CFQ wNQ [1] 1 = (4, 0) ∧
      evaluateLocalProjectionErrorSpec bkQ CFQ wNQ [1] 1 = (6, 0) ∧
      pyFloorDiv 3 2 = 1 ∧ (3 : ℚ) / 2 ≠ 1 ∧
      evaluateLocalProjectionError bkQ CFQ wNQ [1] 1 ≠
        evaluateLocalProjectionErrorSpec bkQ CFQ wNQ [1] 1 := by
  have hinc : miAddOne [1] 1 = [1, 1] := by decide
  have hsub : miSubOne [1] 1 = [1] := by decide
  have hfl : (⌊(3 : ℚ) / 2⌋ : ℤ) = 1 := by
    rw [Int.floor_eq_iff]
    norm_num
  have h1 : evaluateLocalProjectionError bkQ CFQ wNQ [1] 1 = (4, 0) := by
    simp only [evaluateLocalProjectionError, evaluateProjectionsPair, pyFloorDiv,
      bkQ, CFQ, wNQ, hinc, hsub, miGet]
    norm_num [hfl]
  have h2 : evaluateLocalProjectionErrorSpec bkQ CFQ wNQ [1] 1 = (6, 0) := by
    simp only [evaluateLocalProjectionErrorSpec, evaluateProjectionsPair,
      bkQ, CFQ, wNQ, hinc, hsub, miGet]
    norm_num
  refine ⟨h1, h2, ?_, by norm_num, ?_⟩
  · unfold pyFloorDiv
    rw [hfl]
    norm_num
  · rw [h1, h2]
    intro hcontra
    have h46 : (4 : ℚ) = 6 := congrArg Prod.fst hcontra
    norm_num at h46

end Spuq
